import Mathlib

/-!
Verification model of the nagato HTTP-upgrading proxy (nagato.py).

The proxy code is embedded shallowly: byte streams become `List Nat`
(one `Nat` per byte, ASCII for text), the asyncio stream primitives
become pure functions consuming a prefix of the list, Python
exceptions become `Except Err`, and the pseudo-random generator
becomes an explicit oracle function `Nat → Nat` indexed by draw
number.  Every definition follows the corresponding Python function;
the section headers name the source lines.
-/

deriving instance DecidableEq for Except

namespace Nagato

/-- Error kinds: `eofError` models Python EOFError, `valueError`
models ValueError (malformed int/split), `typeError` models TypeError
(arithmetic on None), `structError` models struct.error, `fuelOut`
marks exhaustion of loop fuel in the model. -/
inductive Err where
  | eofError
  | valueError
  | typeError
  | structError
  | fuelOut
  deriving DecidableEq, Repr

/-- Byte strings are lists of natural numbers (one per byte). -/
abbrev Bytes := List Nat

/-- ASCII encoding of a Lean string literal, used to write the
byte constants appearing in the source. -/
def strBytes (s : String) : Bytes := s.toList.map Char.toNat

/-- Carriage return, line feed: the byte pair CRLF. -/
def crlf : Bytes := [13, 10]

/-! ### Line reader: `HttpStream.nextline`, nagato.py lines 88-92

`asyncio.StreamReader.readline` reads bytes up to and including the
first line feed; at end of stream it returns whatever remains
(possibly empty).  `nextline` raises EOFError exactly when that
result is empty. -/

/-- Split a stream at the first line feed (byte 10), inclusive:
returns the line (terminator included, or the whole stream when no
terminator exists) and the remainder.  Models
`asyncio.StreamReader.readline`. -/
def readline : Bytes → Bytes × Bytes
  | [] => ([], [])
  | b :: rest =>
    if b = 10 then ([b], rest)
    else (b :: (readline rest).1, (readline rest).2)

/-- Model of `HttpStream.nextline`: EOFError when `readline` returns
an empty result, otherwise the line. -/
def nextline (s : Bytes) : Except Err (Bytes × Bytes) :=
  if (readline s).1 = [] then .error .eofError
  else .ok ((readline s).1, (readline s).2)

theorem readline_append (s : Bytes) : (readline s).1 ++ (readline s).2 = s := by
  induction s with
  | nil => rfl
  | cons b rest ih =>
    unfold readline
    by_cases h : b = 10 <;> simp [h, ih]

theorem readline_fst_nil_iff (s : Bytes) : (readline s).1 = [] ↔ s = [] := by
  cases s with
  | nil => simp [readline]
  | cons b rest =>
    unfold readline
    by_cases h : b = 10 <;> simp [h]

theorem readline_no_lf_dropLast (s : Bytes) : 10 ∉ (readline s).1.dropLast := by
  induction s with
  | nil => simp [readline]
  | cons b rest ih =>
    unfold readline
    by_cases h : b = 10
    · simp [h]
    · simp only [h, if_false]
      cases hr : (readline rest).1 with
      | nil => simp [hr]
      | cons c cs =>
        rw [show List.dropLast (b :: c :: cs) = b :: List.dropLast (c :: cs) from rfl]
        intro hmem
        rcases List.mem_cons.mp hmem with h1 | h2
        · exact h h1.symm
        · exact (hr ▸ ih) h2

theorem readline_last_or_rest (s : Bytes) :
    (readline s).1.getLast? = some 10 ∨ (readline s).2 = [] := by
  induction s with
  | nil => right; rfl
  | cons b rest ih =>
    unfold readline
    by_cases h : b = 10
    · left; simp [h]
    · simp only [h, if_false]
      rcases ih with h1 | h2
      · left
        cases hr : (readline rest).1 with
        | nil => rw [hr] at h1; simp at h1
        | cons c cs => rw [hr] at h1; simpa [List.getLast?_cons_cons] using h1
      · right; exact h2

/-! ### Decoded-text helpers

The Python code decodes header bytes with `.decode()` and manipulates
them with `str.split`, `str.strip`, `str.lower` and `int(...)`.  All
input of interest is ASCII, so the helpers below work directly on the
byte lists. -/

/-- Lower-case an ASCII byte, as `str.lower` does on ASCII. -/
def lowerByte (b : Nat) : Nat := if 65 ≤ b ∧ b ≤ 90 then b + 32 else b

/-- Lower-case a byte string. -/
def toLowerB (l : Bytes) : Bytes := l.map lowerByte

/-- Drop leading spaces, as `str.lstrip(' ')`. -/
def lstripSpaces (l : Bytes) : Bytes := l.dropWhile (fun b => b == 32)

/-- Drop trailing spaces, as `str.rstrip(' ')`. -/
def rstripSpaces (l : Bytes) : Bytes := (l.reverse.dropWhile (fun b => b == 32)).reverse

/-- Drop spaces on both ends, as `str.strip(' ')`. -/
def stripSpaces (l : Bytes) : Bytes := rstripSpaces (lstripSpaces l)

/-- Drop trailing CR and LF bytes, as Python rstrip over the CRLF pair. -/
def rstripCRLF (l : Bytes) : Bytes :=
  (l.reverse.dropWhile (fun b => b == 13 || b == 10)).reverse

/-- Split at the first occurrence of byte `c`, which is dropped:
models the two-element result of Python split with maxsplit 1, and is
`none` when `c` does not occur (in the source that case makes tuple
unpacking raise ValueError). -/
def splitFirstAt (c : Nat) : Bytes → Option (Bytes × Bytes)
  | [] => none
  | b :: rest =>
    if b = c then some ([], rest)
    else
      match splitFirstAt c rest with
      | none => none
      | some (x, y) => some (b :: x, y)

/-- Split at every occurrence of byte `c`, as Python split without
maxsplit; the result is never the empty list. -/
def splitAllAt (c : Nat) : Bytes → List Bytes
  | [] => [[]]
  | b :: rest =>
    if b = c then [] :: splitAllAt c rest
    else
      match splitAllAt c rest with
      | [] => [[b]]
      | x :: xs => (b :: x) :: xs

/-- Python whitespace bytes stripped by `int(...)`. -/
def isWs (b : Nat) : Bool := b == 32 || b == 9 || b == 10 || b == 13 || b == 11 || b == 12

/-- Strip whitespace on both ends. -/
def stripWs (l : Bytes) : Bytes :=
  ((l.dropWhile isWs).reverse.dropWhile isWs).reverse

/-- Accumulate decimal digits; `none` when empty or a non-digit occurs. -/
def decDigits (l : Bytes) : Option Nat :=
  match l with
  | [] => none
  | _ =>
    l.foldl (fun acc b =>
      match acc with
      | some a => if 48 ≤ b ∧ b ≤ 57 then some (a * 10 + (b - 48)) else none
      | none => none) (some 0)

/-- Value of one hexadecimal digit byte. -/
def hexDigitVal (b : Nat) : Option Nat :=
  if 48 ≤ b ∧ b ≤ 57 then some (b - 48)
  else if 97 ≤ b ∧ b ≤ 102 then some (b - 87)
  else if 65 ≤ b ∧ b ≤ 70 then some (b - 55)
  else none

/-- Accumulate hexadecimal digits; `none` when empty or invalid. -/
def hexDigitsVal (l : Bytes) : Option Nat :=
  match l with
  | [] => none
  | _ =>
    l.foldl (fun acc b =>
      match acc, hexDigitVal b with
      | some a, some d => some (a * 16 + d)
      | _, _ => none) (some 0)

/-- Model of Python `int(value)`: strip whitespace, optional sign,
then decimal digits. -/
def parseInt (l : Bytes) : Option Int :=
  match stripWs l with
  | 45 :: rest => (decDigits rest).map (fun n => -(n : Int))
  | 43 :: rest => (decDigits rest).map (fun n => (n : Int))
  | t => (decDigits t).map (fun n => (n : Int))

/-- Model of Python `int(value, 16)`: strip whitespace, optional
sign, optional 0x prefix, then hexadecimal digits. -/
def parseHex (l : Bytes) : Option Int :=
  let core : Bytes → Option Nat := fun t =>
    match t with
    | 48 :: x :: rest =>
      if x = 120 ∨ x = 88 then hexDigitsVal rest else hexDigitsVal (48 :: x :: rest)
    | t => hexDigitsVal t
  match stripWs l with
  | 45 :: rest => (core rest).map (fun n => -(n : Int))
  | 43 :: rest => (core rest).map (fun n => (n : Int))
  | t => (core t).map (fun n => (n : Int))

/-! ### HTTP message parser state: `HttpStream`, nagato.py lines 75-197 -/

/-- Parser state of `HttpStream` (constructor at nagato.py lines
76-86): `field_done` marks the end of the header block, `body_len`
the declared Content-Length, `chunked` whether a chunked
Transfer-Encoding was declared, `chunk_len` the pending chunk length
(`none` models Python None, meaning a chunk-size line is expected),
`body_done` the end of the body. -/
structure HttpState where
  field_done : Bool := false
  body_len : Int := 0
  chunked : Bool := false
  chunk_len : Option Int := none
  body_done : Bool := false
  deriving DecidableEq, Repr

/-- Fresh parser state, as built by the `HttpStream` constructor. -/
def initHttp : HttpState := {}

/-- Result of one parser operation: the returned value, the updated
parser state, the remaining input stream, and the bytes written to
the tee writer during the operation. -/
structure OpOut (α : Type) where
  res : α
  st : HttpState
  rest : Bytes
  written : Bytes
  deriving DecidableEq, Repr

/-- Return value of `next_header_field`: a parsed field, the bare
CRLF end-marker line, or `done` once the header already finished. -/
inductive FieldResult where
  | field (name value : Bytes)
  | endLine (line : Bytes)
  | done
  deriving DecidableEq, Repr

/-- Lower-cased header name constant. -/
def contentLengthLC : Bytes := strBytes "content-length"

/-- Lower-cased header name constant. -/
def transferEncodingLC : Bytes := strBytes "transfer-encoding"

/-- The token looked up in the Transfer-Encoding coding list. -/
def chunkedTok : Bytes := strBytes "chunked"

/-- Model of `HttpStream.next_header_field` (nagato.py lines
120-149).  Reads one header line (teeing it raw when `tee` is set),
detects the CRLF end-marker, otherwise splits at the first colon,
strips name and value, and updates `body_len` on Content-Length and
`chunked` on a Transfer-Encoding whose coding list contains
chunked. -/
def next_header_field (st : HttpState) (tee : Bool) (s : Bytes) :
    Except Err (OpOut FieldResult) :=
  if st.field_done then .ok ⟨.done, st, s, []⟩
  else
    match nextline s with
    | .error e => .error e
    | .ok (line, rest) =>
      let w := if tee then line else []
      if line = crlf then
        .ok ⟨.endLine line, { st with field_done := true }, rest, w⟩
      else
        match splitFirstAt 58 line with
        | none => .error .valueError
        | some (name0, value0) =>
          let name := stripSpaces name0
          let value := rstripCRLF (lstripSpaces value0)
          if toLowerB name = contentLengthLC then
            match parseInt value with
            | none => .error .valueError
            | some n => .ok ⟨.field name value, { st with body_len := n }, rest, w⟩
          else if toLowerB name = transferEncodingLC then
            if chunkedTok ∈ (splitAllAt 44 value).map stripSpaces then
              .ok ⟨.field name value, { st with chunked := true }, rest, w⟩
            else .ok ⟨.field name value, st, rest, w⟩
          else .ok ⟨.field name value, st, rest, w⟩

/-- Return value of `next_chunk_ready`: a body or chunk length, a
raw line (the trailing line after chunk data), or `done` once the
body finished. -/
inductive ChunkResult where
  | len (n : Int)
  | line (l : Bytes)
  | done
  deriving DecidableEq, Repr

/-- Model of `HttpStream.next_chunk_ready` (nagato.py lines
151-182).  Non-chunked: marks the body done and reports `body_len`
once when positive.  Chunked: reads a line; when no chunk length is
pending, parses it as the hexadecimal chunk size; otherwise returns
the line, marking the body done when the pending length was zero. -/
def next_chunk_ready (st : HttpState) (tee : Bool) (s : Bytes) :
    Except Err (OpOut ChunkResult) :=
  if st.body_done then .ok ⟨.done, st, s, []⟩
  else if !st.chunked then
    if st.body_len > 0 then .ok ⟨.len st.body_len, { st with body_done := true }, s, []⟩
    else .ok ⟨.done, { st with body_done := true }, s, []⟩
  else
    match nextline s with
    | .error e => .error e
    | .ok (line, rest) =>
      let w := if tee then line else []
      match st.chunk_len with
      | none =>
        match parseHex (rstripCRLF line) with
        | none => .error .valueError
        | some v => .ok ⟨.len v, { st with chunk_len := some v }, rest, w⟩
      | some cl =>
        if cl = 0 then
          .ok ⟨.line line, { st with body_done := true, chunk_len := none }, rest, w⟩
        else .ok ⟨.line line, { st with chunk_len := none }, rest, w⟩

/-- The slice size requested by one read of `tunnel_chunk`:
`rlen = 65536 if n > 65536 else n` in the source. -/
def tclRlen (n : Int) : Nat := if n > 65536 then 65536 else n.toNat

theorem tclRlen_pos {n : Int} (h : 0 < n) : 0 < tclRlen n := by
  unfold tclRlen
  split <;> omega

/-- Copy loop of `HttpStream.tunnel_chunk` (nagato.py lines
190-197): while `n > 0`, read up to 65536 bytes at a time, write the
slice, and raise EOFError when a read returns nothing with bytes
still owed.  Returns the list of written slices and the remaining
stream. -/
def tunnel_chunk_loop (n : Int) (s : Bytes) : Except Err (List Bytes × Bytes) :=
  if h : n ≤ 0 then .ok ([], s)
  else
    match s with
    | [] => .error .eofError
    | b :: rest =>
      match tunnel_chunk_loop (n - ((b :: rest).take (tclRlen n)).length)
          ((b :: rest).drop (tclRlen n)) with
      | .error e => .error e
      | .ok (ws, r) => .ok ((b :: rest).take (tclRlen n) :: ws, r)
termination_by s.length
decreasing_by
  simp only [tclRlen, List.length_drop, List.length_cons]
  split <;> omega

/-- Model of `HttpStream.tunnel_chunk` (nagato.py lines 184-197):
the byte count is `body_len` when not chunked, otherwise the pending
`chunk_len`; arithmetic on Python None raises TypeError. -/
def tunnel_chunk (st : HttpState) (s : Bytes) : Except Err (List Bytes × Bytes) :=
  if !st.chunked then tunnel_chunk_loop st.body_len s
  else
    match st.chunk_len with
    | some n => tunnel_chunk_loop n s
    | none => .error .typeError

/-! ### Response relay loops: `NagatoStream.handle_response`,
nagato.py lines 348-359

After writing the status line, `handle_response` loops
`next_header_field(True)` until it returns None, then loops
`next_chunk_ready(True)` copying each announced length with
`tunnel_chunk`.  The loops below model that with explicit fuel;
results are (final parser state, remaining upstream bytes, bytes
written to the client). -/

/-- The header relay loop of `handle_response`. -/
def headerLoop (st : HttpState) (tee : Bool) (s : Bytes) :
    Nat → Except Err (HttpState × Bytes × Bytes)
  | 0 => .error .fuelOut
  | fuel+1 =>
    match next_header_field st tee s with
    | .error e => .error e
    | .ok o =>
      match o.res with
      | .done => .ok (o.st, o.rest, o.written)
      | _ =>
        match headerLoop o.st tee o.rest fuel with
        | .error e => .error e
        | .ok (st2, s2, w2) => .ok (st2, s2, o.written ++ w2)

/-- The body relay loop of `handle_response` (also used by
`handle_request` for the request body): chunk markers are teed, and
each announced integer length is copied with `tunnel_chunk`. -/
def bodyLoop (st : HttpState) (tee : Bool) (s : Bytes) :
    Nat → Except Err (HttpState × Bytes × Bytes)
  | 0 => .error .fuelOut
  | fuel+1 =>
    match next_chunk_ready st tee s with
    | .error e => .error e
    | .ok o =>
      match o.res with
      | .done => .ok (o.st, o.rest, o.written)
      | .len _ =>
        match tunnel_chunk o.st o.rest with
        | .error e => .error e
        | .ok (ws, r) =>
          match bodyLoop o.st tee r fuel with
          | .error e => .error e
          | .ok (st2, s2, w2) => .ok (st2, s2, o.written ++ (ws.flatten ++ w2))
      | .line _ =>
        match bodyLoop o.st tee o.rest fuel with
        | .error e => .error e
        | .ok (st2, s2, w2) => .ok (st2, s2, o.written ++ w2)

/-- Everything `handle_response` relays after the status line: the
teed header block followed by the teed body.  Returns (bytes written
to the client, remaining upstream bytes). -/
def respForward (s : Bytes) (fuel : Nat) : Except Err (Bytes × Bytes) :=
  match headerLoop initHttp true s fuel with
  | .error e => .error e
  | .ok (st1, s1, w1) =>
    match bodyLoop st1 true s1 fuel with
    | .error e => .error e
    | .ok (_, s2, w2) => .ok (w1 ++ w2, s2)

theorem nextline_split {s line rest : Bytes}
    (h : nextline s = .ok (line, rest)) : line ++ rest = s := by
  unfold nextline at h
  split at h
  · cases h
  · cases h
    exact readline_append s

/-- With the tee enabled, one header-field step writes exactly the
bytes it consumed. -/
theorem next_header_field_tee {st : HttpState} {s : Bytes} {o : OpOut FieldResult}
    (h : next_header_field st true s = .ok o) : o.written ++ o.rest = s := by
  unfold next_header_field at h
  split at h
  · cases h; simp
  · cases hn : nextline s with
    | error e => rw [hn] at h; cases h
    | ok p =>
      obtain ⟨line, rest⟩ := p
      rw [hn] at h
      have hps : line ++ rest = s := nextline_split hn
      simp only at h
      split at h
      · cases h; simpa using hps
      · split at h
        · cases h
        · split at h
          · split at h
            · cases h
            · cases h; simpa using hps
          · split at h
            · split at h
              · cases h; simpa using hps
              · cases h; simpa using hps
            · cases h; simpa using hps

/-- With the tee enabled, one chunk-marker step writes exactly the
bytes it consumed. -/
theorem next_chunk_ready_tee {st : HttpState} {s : Bytes} {o : OpOut ChunkResult}
    (h : next_chunk_ready st true s = .ok o) : o.written ++ o.rest = s := by
  unfold next_chunk_ready at h
  split at h
  · cases h; simp
  · split at h
    · split at h
      · cases h; simp
      · cases h; simp
    · cases hn : nextline s with
      | error e => rw [hn] at h; cases h
      | ok p =>
        obtain ⟨line, rest⟩ := p
        rw [hn] at h
        have hps : line ++ rest = s := nextline_split hn
        simp only at h
        split at h
        · split at h
          · cases h
          · cases h; simpa using hps
        · split at h
          · cases h; simpa using hps
          · cases h; simpa using hps

theorem tcl_conserve (n : Int) (s : Bytes) :
    ∀ ws r, tunnel_chunk_loop n s = .ok (ws, r) → ws.flatten ++ r = s := by
  induction n, s using tunnel_chunk_loop.induct with
  | case1 n s h =>
    intro ws r heq
    rw [tunnel_chunk_loop.eq_def] at heq
    rw [dif_pos h] at heq
    cases heq
    simp
  | case2 n h =>
    intro ws r heq
    rw [tunnel_chunk_loop.eq_def] at heq
    rw [dif_neg h] at heq
    cases heq
  | case3 n h b rest e hx ih =>
    intro ws r heq
    rw [tunnel_chunk_loop.eq_def] at heq
    rw [dif_neg h] at heq
    dsimp only at heq
    rw [hx] at heq
    cases heq
  | case4 n h b rest ws0 r0 hx ih =>
    intro ws r heq
    rw [tunnel_chunk_loop.eq_def] at heq
    rw [dif_neg h] at heq
    dsimp only at heq
    rw [hx] at heq
    cases heq
    have := ih ws0 r0 hx
    simp only [List.flatten_cons, List.append_assoc, this]
    exact List.take_append_drop _ _

theorem tclRlen_le_toNat {n : Int} (h : ¬ n ≤ 0) : tclRlen n ≤ n.toNat := by
  unfold tclRlen
  split <;> omega

theorem tclRlen_le_65536 (n : Int) : tclRlen n ≤ 65536 := by
  unfold tclRlen
  split <;> omega

theorem tcl_complete (n : Int) (s : Bytes) :
    n.toNat ≤ s.length →
    ∃ ws, tunnel_chunk_loop n s = .ok (ws, s.drop n.toNat) ∧
      ws.flatten = s.take n.toNat ∧ ∀ w ∈ ws, w.length ≤ 65536 := by
  induction n, s using tunnel_chunk_loop.induct with
  | case1 n s h =>
    intro _
    have h0 : n.toNat = 0 := by omega
    refine ⟨[], ?_, by simp [h0], by simp⟩
    rw [tunnel_chunk_loop.eq_def, dif_pos h, h0]
    simp
  | case2 n h =>
    intro hle
    simp only [List.length_nil, Nat.le_zero] at hle
    omega
  | case3 n h b rest e hx ih =>
    intro hle
    exfalso
    have hr1 : tclRlen n ≤ n.toNat := tclRlen_le_toNat h
    have hlen : ((b :: rest).take (tclRlen n)).length = tclRlen n := by
      simp only [List.length_take, List.length_cons]
      simp only [List.length_cons] at hle
      omega
    obtain ⟨ws, hws, -, -⟩ := ih (by
      simp only [hlen, List.length_drop, List.length_cons]
      simp only [List.length_cons] at hle
      omega)
    rw [hx] at hws
    cases hws
  | case4 n h b rest ws0 r0 hx ih =>
    intro hle
    have hr1 : tclRlen n ≤ n.toNat := tclRlen_le_toNat h
    simp only [List.length_cons] at hle
    have hlen : ((b :: rest).take (tclRlen n)).length = tclRlen n := by
      simp only [List.length_take, List.length_cons]
      omega
    obtain ⟨ws1, hws1, hflat, hbnd⟩ := ih (by
      simp only [hlen, List.length_drop, List.length_cons]
      omega)
    rw [hx] at hws1
    cases hws1
    refine ⟨(b :: rest).take (tclRlen n) :: ws0, ?_, ?_, ?_⟩
    · rw [tunnel_chunk_loop.eq_def, dif_neg h]
      dsimp only
      rw [hx]
      dsimp only
      have harg : (n - ((b :: rest).take (tclRlen n)).length).toNat
          = n.toNat - tclRlen n := by
        rw [hlen]
        omega
      rw [harg, List.drop_drop]
      rw [show tclRlen n + (n.toNat - tclRlen n) = n.toNat from by omega]
    · simp only [List.flatten_cons, hflat]
      have harg : (n - ↑((b :: rest).take (tclRlen n)).length).toNat
          = n.toNat - tclRlen n := by
        rw [hlen]; omega
      rw [harg]
      rw [show n.toNat = tclRlen n + (n.toNat - tclRlen n) from by omega]
      rw [List.take_add]
      simp
    · intro w hw
      rcases List.mem_cons.mp hw with h1 | h2
      · rw [h1, hlen]; exact tclRlen_le_65536 n
      · exact hbnd w h2



theorem tcl_eof (n : Int) (s : Bytes) :
    s.length < n.toNat → tunnel_chunk_loop n s = .error .eofError := by
  induction n, s using tunnel_chunk_loop.induct with
  | case1 n s h =>
    intro hlt
    exfalso
    omega
  | case2 n h =>
    intro _
    rw [tunnel_chunk_loop.eq_def, dif_neg h]
  | case3 n h b rest e hx ih =>
    intro hlt
    rw [tunnel_chunk_loop.eq_def, dif_neg h]
    dsimp only
    have hrec := ih (by
      simp only [List.length_take, List.length_drop, List.length_cons]
      simp only [List.length_cons] at hlt
      have := tclRlen_le_toNat h
      omega)
    rw [hrec]
  | case4 n h b rest ws0 r0 hx ih =>
    intro hlt
    exfalso
    have hrec := ih (by
      simp only [List.length_take, List.length_drop, List.length_cons]
      simp only [List.length_cons] at hlt
      have := tclRlen_le_toNat h
      omega)
    rw [hx] at hrec
    cases hrec

example : decDigits (strBytes "57") = some 57 := by decide

example :
    (next_header_field initHttp false (strBytes "Content-Length: 5\r\nX: y\r\n")).map
      (fun o => (o.st.body_len, o.rest)) = .ok (5, strBytes "X: y\r\n") := by decide

theorem tunnel_chunk_conserve {st : HttpState} {s : Bytes} {ws : List Bytes} {r : Bytes}
    (h : tunnel_chunk st s = .ok (ws, r)) : ws.flatten ++ r = s := by
  unfold tunnel_chunk at h
  split at h
  · exact tcl_conserve _ _ _ _ h
  · split at h
    · exact tcl_conserve _ _ _ _ h
    · cases h

theorem headerLoop_tee :
    ∀ (fuel : Nat) (st : HttpState) (s : Bytes) (out : HttpState × Bytes × Bytes),
      headerLoop st true s fuel = .ok out → out.2.2 ++ out.2.1 = s := by
  intro fuel
  induction fuel with
  | zero => intro st s out h; cases h
  | succ fuel ih =>
    intro st s out h
    cases hf : next_header_field st true s with
    | error e => rw [headerLoop, hf] at h; cases h
    | ok o =>
      obtain ⟨res, st1, rest1, w1⟩ := o
      have hcons : w1 ++ rest1 = s := next_header_field_tee hf
      rw [headerLoop, hf] at h
      cases res with
      | done =>
        cases h
        exact hcons
      | field name value =>
        dsimp only at h
        cases hrec : headerLoop st1 true rest1 fuel with
        | error e => rw [hrec] at h; cases h
        | ok p =>
          obtain ⟨st2, s2, w2⟩ := p
          rw [hrec] at h
          cases h
          have h2 := ih st1 rest1 (st2, s2, w2) hrec
          simp only at h2 ⊢
          rw [List.append_assoc, h2, hcons]
      | endLine line =>
        dsimp only at h
        cases hrec : headerLoop st1 true rest1 fuel with
        | error e => rw [hrec] at h; cases h
        | ok p =>
          obtain ⟨st2, s2, w2⟩ := p
          rw [hrec] at h
          cases h
          have h2 := ih st1 rest1 (st2, s2, w2) hrec
          simp only at h2 ⊢
          rw [List.append_assoc, h2, hcons]

theorem bodyLoop_tee :
    ∀ (fuel : Nat) (st : HttpState) (s : Bytes) (out : HttpState × Bytes × Bytes),
      bodyLoop st true s fuel = .ok out → out.2.2 ++ out.2.1 = s := by
  intro fuel
  induction fuel with
  | zero => intro st s out h; cases h
  | succ fuel ih =>
    intro st s out h
    cases hf : next_chunk_ready st true s with
    | error e => rw [bodyLoop, hf] at h; cases h
    | ok o =>
      obtain ⟨res, st1, rest1, w1⟩ := o
      have hcons : w1 ++ rest1 = s := next_chunk_ready_tee hf
      rw [bodyLoop, hf] at h
      cases res with
      | done =>
        cases h
        exact hcons
      | len k =>
        dsimp only at h
        cases ht : tunnel_chunk st1 rest1 with
        | error e => rw [ht] at h; cases h
        | ok q =>
          obtain ⟨ws, r⟩ := q
          have hts : ws.flatten ++ r = rest1 := tunnel_chunk_conserve ht
          rw [ht] at h
          dsimp only at h
          cases hrec : bodyLoop st1 true r fuel with
          | error e => rw [hrec] at h; cases h
          | ok p =>
            obtain ⟨st2, s2, w2⟩ := p
            rw [hrec] at h
            cases h
            have h2 := ih st1 r (st2, s2, w2) hrec
            simp only at h2 ⊢
            rw [List.append_assoc, List.append_assoc, h2, hts, hcons]
      | line l =>
        dsimp only at h
        cases hrec : bodyLoop st1 true rest1 fuel with
        | error e => rw [hrec] at h; cases h
        | ok p =>
          obtain ⟨st2, s2, w2⟩ := p
          rw [hrec] at h
          cases h
          have h2 := ih st1 rest1 (st2, s2, w2) hrec
          simp only at h2 ⊢
          rw [List.append_assoc, h2, hcons]

theorem respForward_conserve {s : Bytes} {fuel : Nat} {written rest : Bytes}
    (h : respForward s fuel = .ok (written, rest)) : written ++ rest = s := by
  unfold respForward at h
  cases h1 : headerLoop initHttp true s fuel with
  | error e => rw [h1] at h; cases h
  | ok p =>
    obtain ⟨st1, s1, w1⟩ := p
    rw [h1] at h
    dsimp only at h
    cases h2 : bodyLoop st1 true s1 fuel with
    | error e => rw [h2] at h; cases h
    | ok q =>
      obtain ⟨st2, s2, w2⟩ := q
      rw [h2] at h
      have ha := headerLoop_tee fuel initHttp s (st1, s1, w1) h1
      have hb := bodyLoop_tee fuel st1 s1 (st2, s2, w2) h2
      simp only at ha hb
      cases h
      rw [List.append_assoc, hb, ha]

/-! ### Policy map: `host_abs_url`, nagato.py line 26

A process-wide Python dict from the string `host:port` to a Bool:
True means keep absolute-form URLs and upgrade the scheme to https,
False means passthrough with obfuscation.  Modelled as an
association list with dict update semantics. -/

/-- The policy map: keys are `host:port` byte strings, values the
upgrade flag. -/
abbrev PolicyMap := List (Bytes × Bool)

/-- Dict lookup, `host_abs_url.get(key)`: `none` when absent. -/
def pmGet (m : PolicyMap) (k : Bytes) : Option Bool :=
  match m with
  | [] => none
  | (k0, v) :: rest => if k0 = k then some v else pmGet rest k

/-- Dict assignment, `host_abs_url[key] = v`. -/
def pmSet (m : PolicyMap) (k : Bytes) (v : Bool) : PolicyMap :=
  match m with
  | [] => [(k, v)]
  | (k0, v0) :: rest => if k0 = k then (k0, v) :: rest else (k0, v0) :: pmSet rest k v

/-! ### URLs

`urllib.parse.ParseResult` reduced to the three components this
program manipulates: the scheme, the network location, and the rest
of the URL (path, query, fragment) kept verbatim.  `geturl` models
`urlunparse` for such URLs. -/

/-- A parsed URL: scheme, netloc, and the remainder verbatim. -/
structure Url where
  scheme : Bytes
  netloc : Bytes
  tail : Bytes
  deriving DecidableEq, Repr

/-- Modelled from `urllib.parse.urlunparse` restricted to
scheme/netloc/rest: scheme followed by a colon when non-empty, then
two slashes and the netloc when non-empty, then the rest. -/
def Url.geturl (u : Url) : Bytes :=
  (if u.scheme = [] then [] else u.scheme ++ [58]) ++
    (if u.netloc = [] then [] else [47, 47] ++ u.netloc) ++ u.tail

/-! ### Decimal formatting, for Python str formatting of ints -/

/-- Decimal digit bytes of a natural number, most significant first;
fuel-driven so that the kernel can evaluate it (`n + 1` ticks always
suffice). -/
def natDigitsAux : Nat → Nat → Bytes
  | 0, _ => []
  | fuel+1, n => if n < 10 then [48 + n] else natDigitsAux fuel (n / 10) ++ [48 + n % 10]

/-- Decimal digit bytes of a natural number. -/
def natDigits (n : Nat) : Bytes := natDigitsAux (n + 1) n

/-- Python `str` of an int: optional minus sign, then digits. -/
def intToDecBytes (i : Int) : Bytes :=
  if i < 0 then 45 :: natDigits (-i).toNat else natDigits i.toNat

/-! ### Proxy canned responses, nagato.py lines 14-24 -/

/-- The version string embedded in `Proxy-Agent` headers. -/
def nagatoVersion : Bytes := strBytes "0.6.0"

/-- `PROXY_RESP_307` (nagato.py lines 21-24) formatted with the HTTP
version and the redirect location. -/
def proxyResp307 (version loc : Bytes) : Bytes :=
  version ++ strBytes " 307 Temporary Redirect\r\nLocation: " ++ loc ++
    strBytes "\r\nProxy-Agent: Nagato/" ++ nagatoVersion ++
    strBytes "\r\nConnection: close\r\n\r\n"

/-- The reconstructed status line `'{} {} {}\r\n'.format(version,
status, reason)` written by `handle_response` (nagato.py lines
345-346). -/
def statusLineOut (version : Bytes) (status : Int) (reason : Bytes) : Bytes :=
  version ++ [32] ++ intToDecBytes status ++ [32] ++ reason ++ crlf

/-! ### Request head: `NagatoStream.handle_request`, nagato.py
lines 251-269 -/

/-- Outcome of the request-line handling: `lastUrl` is the value
stored into `self.last_url` (the URL as parsed, before any rewrite),
`sentLine` the request line written upstream, `isAbsolute` the
consulted policy (dict get with default True). -/
structure ReqHead where
  lastUrl : Url
  sentLine : Bytes
  isAbsolute : Bool
  deriving DecidableEq, Repr

/-- Model of the request-line part of `handle_request`: store
`last_url`, consult the policy (default True), rewrite the scheme to
https in upgrade mode or clear scheme and netloc in passthrough
mode, and emit `method SP url SP version CRLF`. -/
def handleRequestLine (pm : PolicyMap) (key : Bytes) (method : Bytes) (u : Url)
    (version : Bytes) : ReqHead :=
  let isAbs := (pmGet pm key).getD true
  let u2 : Url :=
    if isAbs then { u with scheme := strBytes "https" }
    else { u with scheme := [], netloc := [] }
  { lastUrl := u
    sentLine := method ++ [32] ++ u2.geturl ++ [32] ++ version ++ crlf
    isAbsolute := isAbs }

/-! ### Response head: `NagatoStream.handle_response`, nagato.py
lines 324-346 -/

/-- Observable outcome of the status-line classification in
`handle_response`: the updated policy map, the bytes written to the
client by this step, whether the upstream response is then forwarded
(header and body teed to the client), whether the client stream was
closed, and whether EOFError was raised. -/
structure RespOutcome where
  pm : PolicyMap
  clientWrites : Bytes
  forwarded : Bool
  closedClient : Bool
  raisedEOF : Bool
  deriving DecidableEq, Repr

/-- Model of the classification in `handle_response` (nagato.py
lines 329-346): 2xx or 304 set the policy entry to True and forward;
4xx/5xx except 503 set it to False, write the 307 redirect pointing
at `last_url`, close the client and raise EOFError; anything else
leaves the map unchanged and forwards. -/
def handleResponseHead (pm : PolicyMap) (key : Bytes) (lastUrl : Url)
    (version : Bytes) (status : Int) (reason : Bytes) : RespOutcome :=
  if (200 ≤ status ∧ status < 300) ∨ status = 304 then
    { pm := pmSet pm key true
      clientWrites := statusLineOut version status reason
      forwarded := true, closedClient := false, raisedEOF := false }
  else if 400 ≤ status ∧ status < 600 ∧ status ≠ 503 then
    { pm := pmSet pm key false
      clientWrites := proxyResp307 version lastUrl.geturl
      forwarded := false, closedClient := true, raisedEOF := true }
  else
    { pm := pm
      clientWrites := statusLineOut version status reason
      forwarded := true, closedClient := false, raisedEOF := false }

/-! ### Concurrent response tasks: `handle_responses`, nagato.py
lines 372-385

`handle_responses` re-checks `host_abs_url.get(host) is None` before
each response, but the check and the policy write inside
`handle_response` are separated by the await of the upstream status
line, where the event loop may run another session.  The step
machine below captures exactly those interaction points for one
response task: stage 0 is the loop guard, stage 1 is the suspension
awaiting the status line (the write happens when this stage runs),
stage 2 is the task after leaving the loop. -/

/-- One session's response task, reduced to its policy-map
interactions: `status` is the status of its next upstream response. -/
structure SessTask where
  status : Int
  stage : Nat
  deriving DecidableEq, Repr

/-- One scheduler step of a response task against the shared policy
map (fixed origin key and last URL). -/
def stepSess (key : Bytes) (lastUrl : Url) (pm : PolicyMap) (t : SessTask) :
    PolicyMap × SessTask :=
  match t.stage with
  | 0 => if pmGet pm key = none then (pm, { t with stage := 1 }) else (pm, { t with stage := 2 })
  | 1 =>
    let out := handleResponseHead pm key lastUrl (strBytes "HTTP/1.1") t.status (strBytes "OK")
    (out.pm, { t with stage := if out.raisedEOF then 2 else 0 })
  | _ => (pm, t)

/-- Interleave two response tasks for the same origin under an
explicit schedule (`true` runs the first task, `false` the second),
returning the final policy map. -/
def runTwo (key : Bytes) (lastUrl : Url) (pm : PolicyMap) (a b : SessTask) :
    List Bool → PolicyMap
  | [] => pm
  | c :: sch =>
    if c then
      let r := stepSess key lastUrl pm a
      runTwo key lastUrl r.1 r.2 b sch
    else
      let r := stepSess key lastUrl pm b
      runTwo key lastUrl r.1 a r.2 sch

/-! ### `random_split`, nagato.py lines 64-72

`random.randrange(step-1)+1` is modelled by an oracle `rnd` giving
the raw draws, reduced modulo `step-1`; the source only ever calls
this with `step = 6`, and the claim range `step ≥ 2` keeps the
modulus positive.  Fuel-driven (`length + 1` ticks suffice) so the
kernel can evaluate it. -/

/-- Recursive worker for `random_split`: index `k` counts the draws
taken from the oracle. -/
def randomSplitAux (rnd : Nat → Nat) (step : Nat) : Nat → Nat → Bytes → List Bytes
  | 0, _, _ => []
  | _, _, [] => []
  | fuel+1, k, b :: rest =>
    (b :: rest).take (rnd k % (step - 1) + 1) ::
      randomSplitAux rnd step fuel (k + 1) ((b :: rest).drop (rnd k % (step - 1) + 1))

/-- Model of `random_split(s, step)`. -/
def random_split (rnd : Nat → Nat) (s : Bytes) (step : Nat) : List Bytes :=
  randomSplitAux rnd step (s.length + 1) 0 s

/-! ### Host-line obfuscation: `handle_request`, nagato.py lines
302-314

The writes, flushes and sleeps performed on the upstream writer are
recorded as an event trace. -/

/-- One observable action on the upstream writer. -/
inductive Ev where
  | write (b : Bytes)
  | flush
  | sleep (ms : Nat)
  deriving DecidableEq, Repr

/-- The per-segment loop body: `write(p); drain; sleep(randrange(10)
/ 1000)` for each piece, with `rl` the oracle for the sleep draws. -/
def segmentEvents (rl : Nat → Nat) : Nat → List Bytes → List Ev
  | _, [] => []
  | i, p :: ps => .write p :: .flush :: .sleep (rl i % 10) :: segmentEvents rl (i + 1) ps

/-- The host value put on the wire: Python `host or self.host`,
which falls back to `self.host` when the captured value is None or
empty (falsy). -/
def codeHostValue (host : Option Bytes) (selfHost : Bytes) : Bytes :=
  match host with
  | some v => if v = [] then selfHost else v
  | none => selfHost

/-- The obfuscated host line `'hoSt:' + (host or self.host) +
'\r\n'`. -/
def hostLine (host : Option Bytes) (selfHost : Bytes) : Bytes :=
  strBytes "hoSt:" ++ codeHostValue host selfHost ++ crlf

/-- The write pieces `[host_line[:2], *random_split(host_line[2:],
6)]`. -/
def hostLinePieces (rs : Nat → Nat) (host : Option Bytes) (selfHost : Bytes) :
    List Bytes :=
  (hostLine host selfHost).take 2 :: random_split rs ((hostLine host selfHost).drop 2) 6

/-- The event trace of the host-field section of `handle_request`
(nagato.py lines 302-314): when in passthrough mode or when a Host
header was captured, the segmented host line; then the terminating
CRLF of the header block. -/
def hostBlockEvents (rs rl : Nat → Nat) (isAbs : Bool) (host : Option Bytes)
    (selfHost : Bytes) : List Ev :=
  (if !isAbs || host.isSome then segmentEvents rl 0 (hostLinePieces rs host selfHost)
   else []) ++ [.write crlf]

/-- Concatenation of the bytes written in an event trace. -/
def writesOf : List Ev → Bytes
  | [] => []
  | .write b :: evs => b ++ writesOf evs
  | _ :: evs => writesOf evs

/-- Sleep durations appearing in an event trace. -/
def sleepsOf : List Ev → List Nat
  | [] => []
  | .sleep d :: evs => d :: sleepsOf evs
  | _ :: evs => sleepsOf evs

/-! ### CONNECT tunnel TLS segmentation: `handle_tunnel`, nagato.py
lines 230-243

After the 200 response, the handler reads 5 bytes, forwards them,
and when they open a TLS 1.0 handshake record longer than 85 bytes
it reads and forwards 85 more and drains the upstream.  The model
treats the client bytes as fully buffered, so `read(n)` returns
`min(n, available)` bytes and raises EOFError only on an empty
stream. -/

/-- Event trace of the TLS-segmentation step of `handle_tunnel`,
with the remaining client bytes.  The first pattern is the empty
stream, on which `read` raises EOFError; with at least five bytes
buffered, `buf` is the first five bytes, `startswith` compares the
first three, and `struct.unpack` reads bytes 3-4 big-endian; with
one to four bytes buffered, `buf` is the whole stream, `startswith`
can only succeed from three bytes up, and a TLS prefix then makes
`struct.unpack` fail on the short slice. -/
def handleTunnelTLS : Bytes → Except Err (List Ev × Bytes)
  | [] => .error .eofError
  | a :: b :: c :: d :: e :: rest =>
    if a = 22 ∧ b = 3 ∧ c = 1 then
      if d * 256 + e > 85 then
        match rest with
        | [] => .error .eofError
        | f :: rest2 =>
          .ok ([.write [a, b, c, d, e], .write ((f :: rest2).take 85), .flush],
            (f :: rest2).drop 85)
      else .ok ([.write [a, b, c, d, e]], rest)
    else .ok ([.write [a, b, c, d, e]], rest)
  | [a] => .ok ([.write [a]], [])
  | [a, b] => .ok ([.write [a, b]], [])
  | [a, b, c] =>
    if a = 22 ∧ b = 3 ∧ c = 1 then .error .structError
    else .ok ([.write [a, b, c]], [])
  | [a, b, c, d] =>
    if a = 22 ∧ b = 3 ∧ c = 1 then .error .structError
    else .ok ([.write [a, b, c, d]], [])

/-! ### Host and port extraction: `handle_streams`, nagato.py lines
394-411

Modelled from `urllib.parse`: for an authority without brackets or
userinfo, `hostname` is the part before the last colon, lower-cased,
and `port` the decimal integer after it (`None` when there is no
colon or nothing follows it). -/

/-- Split at the last occurrence of byte `c`. -/
def splitLastAt (c : Nat) (l : Bytes) : Option (Bytes × Bytes) :=
  match splitFirstAt c l.reverse with
  | none => none
  | some (x, y) => some (y.reverse, x.reverse)

/-- Modelled from `ParseResult.hostname` for bracketless,
userinfo-free authorities. -/
def urlHostname (netloc : Bytes) : Bytes :=
  match splitLastAt 58 netloc with
  | none => toLowerB netloc
  | some (h, _) => toLowerB h

/-- Modelled from `ParseResult.port` for bracketless, userinfo-free
authorities: `none` without a colon or with nothing after it,
ValueError on a non-decimal port. -/
def urlPort (netloc : Bytes) : Except Err (Option Nat) :=
  match splitLastAt 58 netloc with
  | none => .ok none
  | some (_, p) =>
    if p = [] then .ok none
    else
      match decDigits p with
      | some n => .ok (some n)
      | none => .error .valueError

/-- Netloc of an absolute URL, modelled from `urlparse`: the text
between the `//` following the scheme colon and the next slash,
question mark or hash. -/
def urlNetloc (url : Bytes) : Bytes :=
  match splitFirstAt 58 url with
  | none => []
  | some (_, rest) =>
    match rest with
    | 47 :: 47 :: r => r.takeWhile (fun b => !(b == 47 || b == 63 || b == 35))
    | _ => []

/-- The host and port handed to `asyncio.open_connection`. -/
structure ConnectAttempt where
  host : Bytes
  port : Option Nat
  deriving DecidableEq, Repr

/-- The CONNECT branch of `handle_streams` (nagato.py lines
394-405): parse `//` plus the authority, take hostname and port
verbatim — no default is substituted — and connect. -/
def connectDispatch (authority : Bytes) : Except Err ConnectAttempt :=
  match urlPort authority with
  | .error e => .error e
  | .ok p => .ok ⟨urlHostname authority, p⟩

/-- The plaintext branch of `handle_streams` (nagato.py lines
408-411): parse the absolute URL, default the port to 80 when the
URL has none, and connect. -/
def plaintextDispatch (url : Bytes) : Except Err ConnectAttempt :=
  match urlPort (urlNetloc url) with
  | .error e => .error e
  | .ok p => .ok ⟨urlHostname (urlNetloc url), some (p.getD 80)⟩



theorem pmGet_pmSet_self (m : PolicyMap) (k : Bytes) (v : Bool) :
    pmGet (pmSet m k v) k = some v := by
  induction m with
  | nil => simp [pmSet, pmGet]
  | cons hd rest ih =>
    obtain ⟨k0, v0⟩ := hd
    by_cases h : k0 = k <;> simp [pmSet, pmGet, h, ih]

/-- C1: while the origin's policy is unknown, the response task sets
the map entry to upgrade and forwards for 2xx and 304; for 4xx/5xx
except 503 it sets passthrough, discards the upstream response,
writes a 307 whose Location is the original pre-rewrite request URL,
closes the client and raises EOF; all other statuses leave the entry
unchanged and forward. -/
theorem C1_response_classification (pm : PolicyMap) (key method version rversion reason : Bytes)
    (u : Url) (status : Int) (h : pmGet pm key = none) :
    (handleRequestLine pm key method u version).lastUrl = u ∧
    (((200 ≤ status ∧ status < 300) ∨ status = 304) →
      pmGet (handleResponseHead pm key u rversion status reason).pm key = some true ∧
      (handleResponseHead pm key u rversion status reason).forwarded = true ∧
      (handleResponseHead pm key u rversion status reason).clientWrites
        = statusLineOut rversion status reason ∧
      (handleResponseHead pm key u rversion status reason).closedClient = false ∧
      (handleResponseHead pm key u rversion status reason).raisedEOF = false) ∧
    ((400 ≤ status ∧ status < 600 ∧ status ≠ 503) →
      pmGet (handleResponseHead pm key u rversion status reason).pm key = some false ∧
      (handleResponseHead pm key u rversion status reason).forwarded = false ∧
      (handleResponseHead pm key u rversion status reason).clientWrites
        = proxyResp307 rversion u.geturl ∧
      (handleResponseHead pm key u rversion status reason).closedClient = true ∧
      (handleResponseHead pm key u rversion status reason).raisedEOF = true) ∧
    (¬((200 ≤ status ∧ status < 300) ∨ status = 304) →
      ¬(400 ≤ status ∧ status < 600 ∧ status ≠ 503) →
      (handleResponseHead pm key u rversion status reason).pm = pm ∧
      (handleResponseHead pm key u rversion status reason).forwarded = true ∧
      (handleResponseHead pm key u rversion status reason).clientWrites
        = statusLineOut rversion status reason ∧
      (handleResponseHead pm key u rversion status reason).closedClient = false ∧
      (handleResponseHead pm key u rversion status reason).raisedEOF = false) := by
  refine ⟨rfl, ?_, ?_, ?_⟩
  · intro hs
    simp only [handleResponseHead, if_pos hs]
    simp [pmGet_pmSet_self]
  · intro hs
    have h1 : ¬(((200:Int) ≤ status ∧ status < 300) ∨ status = 304) := by omega
    simp only [handleResponseHead, if_neg h1, if_pos hs]
    simp [pmGet_pmSet_self]
  · intro h1 h2
    simp only [handleResponseHead, if_neg h1, if_neg h2]
    simp

theorem C1_witness :
    pmGet ([] : PolicyMap) (strBytes "example.com:80") = none ∧
    pmGet (handleResponseHead [] (strBytes "example.com:80")
        ⟨strBytes "http", strBytes "example.com", [47]⟩
        (strBytes "HTTP/1.1") 403 (strBytes "Forbidden")).pm
      (strBytes "example.com:80") = some false :=
  ⟨rfl,
    ((C1_response_classification [] (strBytes "example.com:80") (strBytes "GET")
        (strBytes "HTTP/1.1") (strBytes "HTTP/1.1") (strBytes "Forbidden")
        ⟨strBytes "http", strBytes "example.com", [47]⟩ 403 rfl).2.2.1
      (by omega)).1⟩



/-- C4 as stated is false: a stream that ends in a non-empty
fragment with no line terminator is returned as a line by
`nextline`, not turned into an EOF failure, and the returned bytes
do not end in CRLF. -/
theorem C4_counterexample :
    nextline (strBytes "ab") = .ok (strBytes "ab", []) ∧
    (strBytes "ab").reverse.take 2 ≠ [10, 13] := by decide

/-- C4 amended: `nextline` fails with EOFError exactly on an empty
stream; otherwise it returns a non-empty prefix of the stream that
either ends at the first line feed (no LF occurs before its last
byte) or, when the stream holds no line feed at all, is the entire
remaining stream. -/
theorem C4_read_line_amended (s : Bytes) :
    (s = [] → nextline s = .error .eofError) ∧
    (s ≠ [] → ∃ line rest, nextline s = .ok (line, rest) ∧ line ≠ [] ∧
      line ++ rest = s ∧ 10 ∉ line.dropLast ∧
      (line.getLast? = some 10 ∨ rest = [])) := by
  constructor
  · intro hs
    subst hs
    rfl
  · intro hs
    refine ⟨(readline s).1, (readline s).2, ?_, ?_, readline_append s,
      readline_no_lf_dropLast s, readline_last_or_rest s⟩
    · unfold nextline
      rw [if_neg]
      intro hnil
      exact hs ((readline_fst_nil_iff s).mp hnil)
    · intro hnil
      exact hs ((readline_fst_nil_iff s).mp hnil)

theorem C4_witness :
    ∃ line rest, nextline (strBytes "x\r\n") = .ok (line, rest) ∧ line ≠ [] ∧
      line ++ rest = strBytes "x\r\n" ∧ 10 ∉ line.dropLast ∧
      (line.getLast? = some 10 ∨ rest = []) :=
  (C4_read_line_amended (strBytes "x\r\n")).2 (by decide)



theorem randomSplitAux_props (rnd : Nat → Nat) (step : Nat) (hstep : 2 ≤ step) :
    ∀ (fuel k : Nat) (s : Bytes), s.length < fuel →
      (randomSplitAux rnd step fuel k s).flatten = s ∧
      ∀ c ∈ randomSplitAux rnd step fuel k s, 1 ≤ c.length ∧ c.length ≤ step - 1 := by
  intro fuel
  induction fuel with
  | zero =>
    intro k s hs
    omega
  | succ fuel ih =>
    intro k s hs
    match s with
    | [] => simp [randomSplitAux]
    | b :: rest =>
      rw [randomSplitAux]
      have hrr1 : 1 ≤ rnd k % (step - 1) + 1 := by omega
      have hrr2 : rnd k % (step - 1) + 1 ≤ step - 1 := by
        have := Nat.mod_lt (rnd k) (show 0 < step - 1 by omega)
        omega
      have hdl : ((b :: rest).drop (rnd k % (step - 1) + 1)).length < fuel := by
        simp only [List.length_drop, List.length_cons]
        simp only [List.length_cons] at hs
        omega
      obtain ⟨hflat, hmem⟩ := ih (k + 1) ((b :: rest).drop (rnd k % (step - 1) + 1)) hdl
      constructor
      · simp only [List.flatten_cons, hflat]
        exact List.take_append_drop _ _
      · intro c hc
        rcases List.mem_cons.mp hc with h1 | h2
        · subst h1
          constructor
          · simp only [List.length_take, List.length_cons]
            omega
          · simp only [List.length_take, List.length_cons]
            omega
        · exact hmem c h2

/-- C6: for step at least 2, `random_split` yields consecutive
non-empty slices with lengths between 1 and step-1 inclusive whose
concatenation in yield order is the whole input. -/
theorem C6_random_split (rnd : Nat → Nat) (s : Bytes) (step : Nat) (hstep : 2 ≤ step) :
    (random_split rnd s step).flatten = s ∧
    ∀ c ∈ random_split rnd s step, 1 ≤ c.length ∧ c.length ≤ step - 1 :=
  randomSplitAux_props rnd step hstep (s.length + 1) 0 s (Nat.lt_succ_self _)

theorem C6_witness :
    (random_split (fun _ => 3) (strBytes "example.com") 6).flatten = strBytes "example.com" ∧
    ∀ c ∈ random_split (fun _ => 3) (strBytes "example.com") 6,
      1 ≤ c.length ∧ c.length ≤ 5 :=
  C6_random_split (fun _ => 3) (strBytes "example.com") 6 (by decide)



theorem splitFirstAt_of_not_mem {c : Nat} {l : Bytes} (h : c ∉ l) :
    splitFirstAt c l = none := by
  induction l with
  | nil => rfl
  | cons b rest ih =>
    simp only [List.mem_cons, not_or] at h
    rw [splitFirstAt, if_neg (fun hb => h.1 hb.symm), ih h.2]

theorem splitFirstAt_append_cons {c : Nat} {l1 l2 : Bytes} (h : c ∉ l1) :
    splitFirstAt c (l1 ++ c :: l2) = some (l1, l2) := by
  induction l1 with
  | nil => simp [splitFirstAt]
  | cons b rest ih =>
    simp only [List.mem_cons, not_or] at h
    rw [List.cons_append, splitFirstAt, if_neg (fun hb => h.1 hb.symm), ih h.2]

theorem takeWhile_append_stop {p : Nat → Bool} {l1 l2 : Bytes} {x : Nat}
    (h1 : ∀ b ∈ l1, p b = true) (hx : p x = false) :
    (l1 ++ x :: l2).takeWhile p = l1 := by
  induction l1 with
  | nil => simp [List.takeWhile_cons, hx]
  | cons b rest ih =>
    rw [List.cons_append, List.takeWhile_cons]
    simp [h1 b (List.mem_cons_self b rest),
      ih (fun y hy => h1 y (List.mem_cons_of_mem b hy))]

theorem urlPort_no_colon {auth : Bytes} (h58 : 58 ∉ auth) : urlPort auth = .ok none := by
  unfold urlPort splitLastAt
  rw [splitFirstAt_of_not_mem (fun hm => h58 (List.mem_reverse.mp hm))]

/-- C10: a CONNECT authority without a colon yields a null port that
is handed unchanged to the upstream connection attempt, while the
plaintext path defaults the missing port to 80. -/
theorem C10_port_defaulting (auth : Bytes) (h58 : 58 ∉ auth) (h47 : 47 ∉ auth)
    (h63 : 63 ∉ auth) (h35 : 35 ∉ auth) :
    connectDispatch auth = .ok ⟨toLowerB auth, none⟩ ∧
    plaintextDispatch (strBytes "http://" ++ auth ++ [47]) = .ok ⟨toLowerB auth, some 80⟩ := by
  have hport := urlPort_no_colon h58
  have hhost : urlHostname auth = toLowerB auth := by
    unfold urlHostname splitLastAt
    rw [splitFirstAt_of_not_mem (fun hm => h58 (List.mem_reverse.mp hm))]
  constructor
  · unfold connectDispatch
    rw [hport, hhost]
  · have hnet : urlNetloc (strBytes "http://" ++ auth ++ [47]) = auth := by
      unfold urlNetloc
      rw [show strBytes "http://" ++ auth ++ [47]
          = strBytes "http" ++ 58 :: (47 :: 47 :: (auth ++ [47])) from by
        simp [strBytes]]
      rw [splitFirstAt_append_cons (by decide)]
      refine takeWhile_append_stop (fun b hb => ?_) (by decide)
      have hb47 : b ≠ 47 := fun he => h47 (he ▸ hb)
      have hb63 : b ≠ 63 := fun he => h63 (he ▸ hb)
      have hb35 : b ≠ 35 := fun he => h35 (he ▸ hb)
      simp [hb47, hb63, hb35]
    unfold plaintextDispatch
    rw [hnet, hport, hhost]
    rfl

theorem C10_witness :
    connectDispatch (strBytes "example.com") = .ok ⟨toLowerB (strBytes "example.com"), none⟩ ∧
    plaintextDispatch (strBytes "http://" ++ strBytes "example.com" ++ [47])
      = .ok ⟨toLowerB (strBytes "example.com"), some 80⟩ :=
  C10_port_defaulting (strBytes "example.com") (by decide) (by decide) (by decide) (by decide)

/-- C5: after the 200 response the tunnel handler forwards the first
5 client bytes; exactly when they open with 16 03 01 and the
big-endian length in bytes 3-4 exceeds 85 it also forwards the next
85 bytes (in full, given at least 90 buffered client bytes) and
flushes the upstream; for any other first 5 bytes no further write
or flush happens before the pumps start. -/
theorem C5_tls_segmentation (a b c d e : Nat) (t : Bytes) (ht : 85 ≤ t.length) :
    ((a = 22 ∧ b = 3 ∧ c = 1 ∧ 85 < d * 256 + e) →
      handleTunnelTLS (a :: b :: c :: d :: e :: t)
        = .ok ([.write [a, b, c, d, e], .write (t.take 85), .flush], t.drop 85) ∧
      (t.take 85).length = 85) ∧
    ((¬(a = 22 ∧ b = 3 ∧ c = 1) ∨ d * 256 + e ≤ 85) →
      handleTunnelTLS (a :: b :: c :: d :: e :: t)
        = .ok ([.write [a, b, c, d, e]], t)) := by
  constructor
  · rintro ⟨ha, hb, hc, hlen⟩
    refine ⟨?_, by simp only [List.length_take]; omega⟩
    match t, ht with
    | f :: t2, _ =>
      rw [handleTunnelTLS.eq_def]
      dsimp only
      rw [if_pos ⟨ha, hb, hc⟩, if_pos hlen]
  · intro hcond
    rcases hcond with hno | hsmall
    · rw [handleTunnelTLS.eq_def]
      dsimp only
      rw [if_neg hno]
    · by_cases htls : a = 22 ∧ b = 3 ∧ c = 1
      · rw [handleTunnelTLS.eq_def]
        dsimp only
        rw [if_pos htls, if_neg (by omega)]
      · rw [handleTunnelTLS.eq_def]
        dsimp only
        rw [if_neg htls]

theorem C5_witness :
    handleTunnelTLS (22 :: 3 :: 1 :: 0 :: 200 :: List.replicate 85 9)
      = .ok ([.write [22, 3, 1, 0, 200], .write ((List.replicate 85 9).take 85), .flush],
        (List.replicate 85 9).drop 85) ∧
    ((List.replicate 85 9).take 85).length = 85 :=
  (C5_tls_segmentation 22 3 1 0 200 (List.replicate 85 9) (by simp)).1
    (by norm_num)

/-- C2 as stated is false: the parser state reached from a fresh
state by feeding a Transfer-Encoding chunked field and then a
Content-Length 5 field has `chunked` set together with the non-zero
`body_len` 5 (neither assignment clears the other flag, and the
declaration order shows that the last declaration does not win the
flags back). -/
theorem C2_counterexample :
    (headerLoop initHttp false
        (strBytes "Transfer-Encoding: chunked\r\nContent-Length: 5\r\n\r\n") 10).map
      (fun out => (out.1.chunked, out.1.body_len)) = .ok (true, 5) ∧ (5 : Int) ≠ 0 := by
  constructor
  · decide
  · decide

/-- C2 amended: `chunked` and a non-zero `body_len` can hold
simultaneously; when `chunked` is set the chunk iterator and the
body copier ignore `body_len` entirely, so Transfer-Encoding chunked
is honored over Content-Length regardless of declaration order; and
once `body_done` is set, `next_chunk_ready` consumes no input at
all. -/
theorem C2_flags_amended (st : HttpState) (tee : Bool) (s : Bytes) (m : Int) :
    (st.body_done = true → next_chunk_ready st tee s = .ok ⟨.done, st, s, []⟩) ∧
    (st.chunked = true →
      next_chunk_ready { st with body_len := m } tee s
        = (next_chunk_ready st tee s).map
            (fun o => ⟨o.res, { o.st with body_len := m }, o.rest, o.written⟩)) ∧
    (st.chunked = true → tunnel_chunk { st with body_len := m } s = tunnel_chunk st s) := by
  refine ⟨?_, ?_, ?_⟩
  · intro hbd
    unfold next_chunk_ready
    rw [if_pos hbd]
  · intro hch
    unfold next_chunk_ready
    by_cases hbd : st.body_done = true
    · simp [hbd, Except.map]
    · rw [Bool.not_eq_true] at hbd
      simp only [hbd, hch]
      cases hn : nextline s with
      | error e => rfl
      | ok p =>
        obtain ⟨line, rest⟩ := p
        dsimp only
        cases hcl : st.chunk_len with
        | none =>
          cases hx : parseHex (rstripCRLF line) with
          | none => rfl
          | some v => simp [Except.map]
        | some cl =>
          by_cases hz : cl = 0 <;> simp [hz, Except.map]
  · intro hch
    unfold tunnel_chunk
    simp [hch]

theorem C2_witness :
    next_chunk_ready { initHttp with body_done := true } false (strBytes "payload")
      = .ok ⟨.done, { initHttp with body_done := true }, strBytes "payload", []⟩ :=
  (C2_flags_amended { initHttp with body_done := true } false (strBytes "payload") 0).1 rfl

/-- C3 as stated is false: in a chunked state with pending chunk
length 3 and the default `body_len` 0, `tunnel_chunk` copies 3
bytes, not `min(chunk_remaining, body_length) = 0`. -/
theorem C3_counterexample :
    (∃ ws r, tunnel_chunk { initHttp with chunked := true, chunk_len := some 3 } [7, 8, 9]
        = .ok (ws, r) ∧ ws.flatten.length = 3) ∧
    min (3 : Int) ({ initHttp with chunked := true, chunk_len := some 3 } : HttpState).body_len
      = 0 ∧ (3 : Nat) ≠ 0 := by
  refine ⟨?_, by decide, by decide⟩
  obtain ⟨ws, hws, hflat, -⟩ := tcl_complete 3 [7, 8, 9] (by decide)
  refine ⟨ws, List.drop (Int.toNat 3) [7, 8, 9], ?_, ?_⟩
  · exact hws
  · rw [hflat]
    decide

/-- C3 amended: `tunnel_chunk` copies exactly `body_len` bytes when
not chunked and exactly the pending `chunk_len` bytes when chunked,
in slices of at most 65536 bytes, and fails with EOFError when the
reader ends before that many bytes arrive. -/
theorem C3_tunnel_chunk_amended (st : HttpState) (s : Bytes) (n : Int)
    (hn : (st.chunked = false ∧ st.body_len = n) ∨
      (st.chunked = true ∧ st.chunk_len = some n)) :
    (n.toNat ≤ s.length →
      ∃ ws, tunnel_chunk st s = .ok (ws, s.drop n.toNat) ∧
        ws.flatten = s.take n.toNat ∧ ∀ w ∈ ws, w.length ≤ 65536) ∧
    (s.length < n.toNat → tunnel_chunk st s = .error .eofError) := by
  have hcall : tunnel_chunk st s = tunnel_chunk_loop n s := by
    unfold tunnel_chunk
    rcases hn with ⟨hch, hbl⟩ | ⟨hch, hcl⟩
    · rw [hch, hbl]
      rfl
    · rw [hch, hcl]
      rfl
  rw [hcall]
  exact ⟨fun hle => tcl_complete n s hle, fun hlt => tcl_eof n s hlt⟩

theorem C3_witness :
    (2 : Int).toNat ≤ (strBytes "hello").length ∧
    ∃ ws, tunnel_chunk { initHttp with body_len := 2 } (strBytes "hello")
      = .ok (ws, (strBytes "hello").drop (2 : Int).toNat) ∧
      ws.flatten = (strBytes "hello").take (2 : Int).toNat ∧ ∀ w ∈ ws, w.length ≤ 65536 :=
  ⟨by decide,
    (C3_tunnel_chunk_amended { initHttp with body_len := 2 } (strBytes "hello") 2
      (Or.inl ⟨rfl, rfl⟩)).1 (by decide)⟩

/-- The origin key used in concrete scenarios. -/
def demoKey : Bytes := strBytes "example.com:80"

/-- The request URL used in concrete scenarios. -/
def demoUrl : Url := ⟨strBytes "http", strBytes "example.com", [47]⟩

/-- C8 as stated is false: with two concurrent sessions to the same
origin, both can pass the loop guard while the entry is absent (the
guard and the write are separated by the await of the status line);
the first then sets the entry to upgrade on its 200 and the second
later overwrites it to passthrough on its 403.  After three steps
the entry is upgrade; the fourth step changes it. -/
theorem C8_counterexample :
    pmGet (runTwo demoKey demoUrl [] ⟨200, 0⟩ ⟨403, 0⟩ [true, false, true]) demoKey
      = some true ∧
    pmGet (runTwo demoKey demoUrl [] ⟨200, 0⟩ ⟨403, 0⟩ [true, false, true, false]) demoKey
      = some false := by
  constructor
  · decide
  · decide

theorem pmGet_pmSet_ne (m : PolicyMap) (k k2 : Bytes) (v : Bool) (hk : k ≠ k2) :
    pmGet (pmSet m k v) k2 = pmGet m k2 := by
  induction m with
  | nil => simp [pmSet, pmGet, hk]
  | cons hd rest ih =>
    obtain ⟨k0, v0⟩ := hd
    by_cases h : k0 = k <;> simp [pmSet, pmGet, h, ih]
    subst h
    simp [hk]

/-- C8 amended: policy entries are never deleted (any scheduler step
keeps every present entry present), a response task whose loop guard
sees a decided entry exits without writing, and a session running
alone against a decided origin leaves the policy map untouched; the
value can change only when another task passed its guard before the
entry was written. -/
theorem C8_policy_amended (key : Bytes) (lastUrl : Url) (pm : PolicyMap) (t b : SessTask) :
    (∀ k v, pmGet pm k = some v → ∃ v2, pmGet (stepSess key lastUrl pm t).1 k = some v2) ∧
    (pmGet pm key ≠ none → t.stage = 0 →
      stepSess key lastUrl pm t = (pm, { t with stage := 2 })) ∧
    (pmGet pm key ≠ none → t.stage = 0 →
      ∀ n : Nat, runTwo key lastUrl pm t b (List.replicate n true) = pm) := by
  refine ⟨?_, ?_, ?_⟩
  · intro k v hv
    unfold stepSess
    match ht : t.stage with
    | 0 =>
      dsimp only
      by_cases hg : pmGet pm key = none
      · rw [if_pos hg]
        exact ⟨v, hv⟩
      · rw [if_neg hg]
        exact ⟨v, hv⟩
    | 1 =>
      dsimp only
      unfold handleResponseHead
      split
      · by_cases hk : key = k
        · subst hk
          exact ⟨true, pmGet_pmSet_self pm key true⟩
        · exact ⟨v, by rw [pmGet_pmSet_ne pm key k true hk]; exact hv⟩
      · split
        · by_cases hk : key = k
          · subst hk
            exact ⟨false, pmGet_pmSet_self pm key false⟩
          · exact ⟨v, by rw [pmGet_pmSet_ne pm key k false hk]; exact hv⟩
        · exact ⟨v, hv⟩
    | (m+2) =>
      exact ⟨v, hv⟩
  · intro hne ht
    unfold stepSess
    rw [ht]
    dsimp only
    rw [if_neg hne]
  · intro hne ht n
    have hstep : stepSess key lastUrl pm t = (pm, { t with stage := 2 }) := by
      unfold stepSess
      rw [ht]
      dsimp only
      rw [if_neg hne]
    have h2 : ∀ (t2 : SessTask), t2.stage = 2 → ∀ m : Nat,
        runTwo key lastUrl pm t2 b (List.replicate m true) = pm := by
      intro t2 ht2 m
      induction m with
      | zero => rfl
      | succ m ih =>
        rw [List.replicate_succ, runTwo]
        have hs : stepSess key lastUrl pm t2 = (pm, t2) := by
          unfold stepSess
          rw [ht2]
        rw [if_pos rfl, hs]
        exact ih
    match n with
    | 0 => rfl
    | m+1 =>
      rw [List.replicate_succ, runTwo, if_pos rfl, hstep]
      exact h2 { t with stage := 2 } rfl m



theorem C8_witness :
    stepSess demoKey demoUrl [(demoKey, true)] ⟨403, 0⟩
      = ([(demoKey, true)], ⟨403, 2⟩) :=
  (C8_policy_amended demoKey demoUrl [(demoKey, true)] ⟨403, 0⟩ ⟨200, 0⟩).2.1
    (by decide) rfl

/-- The host value the claim describes: the captured Host value as
such, with the origin host only when no Host header was captured. -/
def claimHostValue (host : Option Bytes) (selfHost : Bytes) : Bytes :=
  match host with
  | some v => v
  | none => selfHost

/-- C9 as stated is false on one reachable input: when the captured
Host value is the empty string, Python `host or self.host` is falsy
and the code substitutes the origin host, while the claim prescribes
the captured (empty) value; the line on the wire differs. -/
theorem C9_counterexample :
    writesOf (hostBlockEvents (fun _ => 0) (fun _ => 0) false (some []) (strBytes "example.com"))
      = strBytes "hoSt:example.com\r\n" ++ crlf ∧
    strBytes "hoSt:example.com\r\n"
      ≠ strBytes "hoSt:" ++ claimHostValue (some []) (strBytes "example.com") ++ crlf := by
  constructor
  · decide
  · decide

theorem writesOf_append (e1 e2 : List Ev) :
    writesOf (e1 ++ e2) = writesOf e1 ++ writesOf e2 := by
  induction e1 with
  | nil => rfl
  | cons e rest ih => cases e <;> simp [writesOf, ih]

theorem sleepsOf_append (e1 e2 : List Ev) :
    sleepsOf (e1 ++ e2) = sleepsOf e1 ++ sleepsOf e2 := by
  induction e1 with
  | nil => rfl
  | cons e rest ih => cases e <;> simp [sleepsOf, ih]

theorem writesOf_segmentEvents (rl : Nat → Nat) :
    ∀ (i : Nat) (ps : List Bytes), writesOf (segmentEvents rl i ps) = ps.flatten := by
  intro i ps
  induction ps generalizing i with
  | nil => rfl
  | cons p rest ih => simp [segmentEvents, writesOf, ih]

theorem sleepsOf_segmentEvents_le (rl : Nat → Nat) :
    ∀ (i : Nat) (ps : List Bytes), ∀ d ∈ sleepsOf (segmentEvents rl i ps), d ≤ 9 := by
  intro i ps
  induction ps generalizing i with
  | nil => intro d hd; cases hd
  | cons p rest ih =>
    intro d hd
    simp only [segmentEvents, sleepsOf] at hd
    rcases List.mem_cons.mp hd with h1 | h2
    · subst h1
      exact Nat.le_of_lt_succ (Nat.mod_lt _ (by norm_num))
    · exact ih (i + 1) d h2

/-- C9 amended: whenever the mode is passthrough or a Host header
was captured, the host section is emitted as the pieces
`host_line[:2]` then `random_split(host_line[2:], 6)`, each piece as
one write followed by one flush and one sleep of at most 9 ms, then
the bare CRLF ending the header block; the bytes on the wire are
`hoSt:` + (the captured value, or the origin host when the capture
is absent or empty) + CRLF; the first piece is exactly 2 bytes and
every later piece has 1 to 5 bytes. -/
theorem C9_host_line_amended (rs rl : Nat → Nat) (isAbs : Bool) (host : Option Bytes)
    (selfHost : Bytes) (hcond : isAbs = false ∨ host ≠ none) :
    hostBlockEvents rs rl isAbs host selfHost
      = segmentEvents rl 0 (hostLinePieces rs host selfHost) ++ [.write crlf] ∧
    (hostLinePieces rs host selfHost).head? = some ((hostLine host selfHost).take 2) ∧
    ((hostLine host selfHost).take 2).length = 2 ∧
    (hostLinePieces rs host selfHost).tail
      = random_split rs ((hostLine host selfHost).drop 2) 6 ∧
    writesOf (hostBlockEvents rs rl isAbs host selfHost)
      = hostLine host selfHost ++ crlf ∧
    (∀ d ∈ sleepsOf (hostBlockEvents rs rl isAbs host selfHost), d ≤ 9) ∧
    (∀ p ∈ (hostLinePieces rs host selfHost).tail, 1 ≤ p.length ∧ p.length ≤ 5) := by
  have hg : (!isAbs || host.isSome) = true := by
    rcases hcond with h | h
    · rw [h]; rfl
    · cases host with
      | none => exact absurd rfl h
      | some v => simp
  have hevs : hostBlockEvents rs rl isAbs host selfHost
      = segmentEvents rl 0 (hostLinePieces rs host selfHost) ++ [.write crlf] := by
    unfold hostBlockEvents
    rw [hg]
    rfl
  have hsplit := randomSplitAux_props rs 6 (by norm_num)
      (((hostLine host selfHost).drop 2).length + 1) 0
      ((hostLine host selfHost).drop 2) (Nat.lt_succ_self _)
  have hflat : (hostLinePieces rs host selfHost).flatten = hostLine host selfHost := by
    unfold hostLinePieces
    rw [List.flatten_cons]
    rw [show random_split rs ((hostLine host selfHost).drop 2) 6
        = randomSplitAux rs 6 (((hostLine host selfHost).drop 2).length + 1) 0
            ((hostLine host selfHost).drop 2) from rfl]
    rw [hsplit.1]
    exact List.take_append_drop _ _
  refine ⟨hevs, rfl, ?_, rfl, ?_, ?_, ?_⟩
  · simp only [List.length_take, hostLine, codeHostValue]
    cases host with
    | none => simp [strBytes, crlf]
    | some v =>
      by_cases hv : v = [] <;> simp [hv, strBytes, crlf]
  · rw [hevs, writesOf_append, writesOf_segmentEvents, hflat]
    rfl
  · intro d hd
    rw [hevs, sleepsOf_append] at hd
    rcases List.mem_append.mp hd with h1 | h2
    · exact sleepsOf_segmentEvents_le rl 0 _ d h1
    · cases h2
  · intro p hp
    exact hsplit.2 p hp

theorem C9_witness :
    writesOf (hostBlockEvents (fun _ => 2) (fun _ => 4) true
        (some (strBytes "example.com")) (strBytes "origin.example"))
      = hostLine (some (strBytes "example.com")) (strBytes "origin.example") ++ crlf :=
  (C9_host_line_amended (fun _ => 2) (fun _ => 4) true (some (strBytes "example.com"))
    (strBytes "origin.example") (Or.inr (by decide))).2.2.2.2.1

/-- C7: whenever the forwarding path of `handle_response` completes
on a response (headers and body relayed with the tee after the
status line), the concatenation of the bytes written to the client
equals the concatenation of the bytes consumed from the upstream:
header lines, chunk-size lines, trailing lines and body payload are
relayed byte for byte. -/
theorem C7_framing_conservation (s : Bytes) (fuel : Nat) (written rest : Bytes)
    (h : respForward s fuel = .ok (written, rest)) : written ++ rest = s :=
  respForward_conserve h

theorem C7_witness :
    strBytes "Content-Type: text/plain\r\n\r\n" ++ []
      = strBytes "Content-Type: text/plain\r\n\r\n" :=
  C7_framing_conservation (strBytes "Content-Type: text/plain\r\n\r\n") 5
    (strBytes "Content-Type: text/plain\r\n\r\n") [] (by decide)

end Nagato
